import Mathlib

/-!
Verification of the zhtw multi-pattern matching and conflict-resolution core
(`src/zhtw/matcher.py` and the line-suppression entry points of
`src/zhtw/converter.py`) against its design specification.

Texts are modelled as `List Char` (Python `str` offsets are character
offsets), a term mapping as an association list `List (List Char × List Char)`
in insertion order (a Python `dict` additionally guarantees key uniqueness,
which appears as a `Nodup` hypothesis where a theorem needs it).
-/

namespace Zhtw

/-- `Match` from `matcher.py`: a half-open span `[start, stop)` in a text
(`stop` renders the Python field `end`, a Lean keyword), the source term
found there and its replacement. -/
structure Match where
  start : Nat
  stop : Nat
  source : List Char
  target : List Char
deriving DecidableEq, Repr

/-- The characters of `text` in the half-open span `[start, stop)`
(Python `text[start:stop]`). -/
def textSeg (text : List Char) (start stop : Nat) : List Char :=
  (text.drop start).take (stop - start)

/-- `Matcher._build_automaton`: every `(source, target)` pair is registered
with `automaton.add_word(source, (source, target))`.  pyahocorasick's
`add_word` refuses an empty key (it returns `False` and adds nothing), so the
built automaton holds exactly the pairs with a non-empty source. -/
def buildAutomaton (terms : List (List Char × List Char)) :
    List (List Char × List Char) :=
  terms.filter (fun p => ¬ p.1 = [])

/-- The state of a `Matcher` object: the `self.terms` reference stored by
`__init__` and the automaton built from the terms present at construction
time.  Keeping the two as separate fields captures that `self.terms` aliases
the caller's dict while the automaton is a compiled snapshot. -/
structure Matcher where
  terms : List (List Char × List Char)
  automaton : List (List Char × List Char)
deriving DecidableEq, Repr

/-- `Matcher.__init__`: store the caller's mapping and build the automaton
from it. -/
def matcherInit (terms : List (List Char × List Char)) : Matcher :=
  ⟨terms, buildAutomaton terms⟩

/-- `BuildIndex` as the spec's entry point for `Matcher.__init__`.  The
constructor contains no validation and raises nothing, so the result is
always `ok`. -/
def buildIndex (terms : List (List Char × List Char)) :
    Except String Matcher :=
  Except.ok (matcherInit terms)

/-- `automaton.iter(text)`: every occurrence of every registered pattern, as
`Match` values the way `find_matches` rebuilds them (`start = end_pos -
len(source) + 1`).  Enumeration order is by start position here; the caller
sorts the list before use, so only the multiset matters. -/
def automatonIter (aut : List (List Char × List Char)) (text : List Char) :
    List Match :=
  (List.range text.length).flatMap (fun s =>
    aut.filterMap (fun p =>
      if (text.drop s).take p.1.length = p.1 then
        some ⟨s, s + p.1.length, p.1, p.2⟩
      else none))

/-- The sort key of `find_matches`: `(start, -(end - start))`, i.e. start
ascending and, at equal starts, length descending. -/
def occLE (a b : Match) : Bool :=
  decide (a.start < b.start ∨
    (a.start = b.start ∧ b.stop - b.start ≤ a.stop - a.start))

/-- The sort key of `replace_all`: `start` descending (`reverse=True`). -/
def descLE (a b : Match) : Bool :=
  decide (b.start ≤ a.start)

/-- Stable insertion of `x` into `l`: `x` goes in front of the first element
it compares `le` to, so an element placed earlier by the caller stays ahead
of later ties — the stability guarantee of Python's `list.sort`. -/
def insertLe (le : α → α → Bool) (x : α) : List α → List α
  | [] => [x]
  | y :: ys => if le x y then x :: y :: ys else y :: insertLe le x ys

/-- Stable sort by `le`, modelling Python's stable `list.sort(key=...)`.
Any two stable sorts agree on every input, so insertion sort is a faithful
rendering; it is structurally recursive, hence computable by `decide`. -/
def sortBy (le : α → α → Bool) : List α → List α
  | [] => []
  | x :: xs => insertLe le x (sortBy le xs)

/-- The `protected` set of `find_matches`: every offset covered by an
identity occurrence (`source == target`).  A `List Nat` used only through
membership models the Python `set`. -/
def protectedOf (ms : List Match) : List Nat :=
  ms.flatMap (fun m =>
    if m.source = m.target then List.range' m.start (m.stop - m.start)
    else [])

/-- The filtering walk of `find_matches` (lines 99–109 of `matcher.py`):
`lastEnd` starts at `-1`; an occurrence starting before `lastEnd` is skipped;
a surviving non-identity occurrence overlapping a protected offset is skipped
without claiming text; otherwise the occurrence claims `lastEnd = stop` and
is yielded iff it is not an identity. -/
def resolveWalk (prot : List Nat) : Int → List Match → List Match
  | _, [] => []
  | lastEnd, m :: rest =>
    if lastEnd ≤ (m.start : Int) then
      if ¬ m.source = m.target ∧
          ((List.range' m.start (m.stop - m.start)).any
            (fun i => prot.contains i)) = true then
        resolveWalk prot lastEnd rest
      else if ¬ m.source = m.target then
        m :: resolveWalk prot (m.stop : Int) rest
      else
        resolveWalk prot (m.stop : Int) rest
    else
      resolveWalk prot lastEnd rest

/-- `Matcher.find_matches`: return nothing when `self.terms` is empty,
otherwise collect all automaton occurrences, sort by `(start, -length)`,
build the protected set and run the filtering walk.

Domain note: pyahocorasick leaves an automaton to which no word was ever
added unconverted, and `iter` on it raises `AttributeError`; the `if not
self.terms` early return shields only the empty dict from that, not a
truthy mapping all of whose keys were refused by `add_word` (every source
key empty).  That raising run is outside this model, which covers the empty
mapping and every mapping with at least one non-empty source key. -/
def findMatches (m : Matcher) (text : List Char) : List Match :=
  if m.terms.isEmpty then []
  else
    let allMatches := sortBy occLE (automatonIter m.automaton text)
    resolveWalk (protectedOf allMatches) (-1) allMatches

/-- The line-start table of `find_matches_with_lines`: `[0]` followed by
`i + 1` for every index `i` with `text[i] == '\n'`, in order. -/
def lineStartsAux : Nat → List Char → List Nat
  | _, [] => []
  | i, c :: cs =>
    (if c = '\n' then [i + 1] else []) ++ lineStartsAux (i + 1) cs

/-- Offsets at which lines of `text` start. -/
def lineStarts (text : List Char) : List Nat :=
  0 :: lineStartsAux 0 text

/-- The binary-search `while lo < hi` loop of `get_line_col`, rendered with
an explicit iteration bound (first argument) to keep the recursion
structural: every iteration shrinks `hi - lo` by at least one, so a bound of
`hi - lo` at entry is never exhausted and the rendering computes exactly
what the loop computes — it narrows `[lo, hi]` to the greatest index whose
line start is `≤ pos`. -/
def lineColLoop (ls : List Nat) (pos : Nat) : Nat → Nat → Nat → Nat
  | 0, lo, _ => lo
  | fuel + 1, lo, hi =>
    if lo < hi then
      let mid := (lo + hi + 1) / 2
      if ls.getD mid 0 ≤ pos then lineColLoop ls pos fuel mid hi
      else lineColLoop ls pos fuel lo (mid - 1)
    else lo

/-- `get_line_col`: 1-based line and column of a character offset;
the loop starts from `lo = 0`, `hi = len(line_starts) - 1`. -/
def getLineCol (text : List Char) (pos : Nat) : Nat × Nat :=
  let ls := lineStarts text
  let lo := lineColLoop ls pos (ls.length - 1) 0 (ls.length - 1)
  (lo + 1, pos - ls.getD lo 0 + 1)

/-- `Matcher.find_matches_with_lines`: each resolved match together with the
line/column of its start offset. -/
def findMatchesWithLines (m : Matcher) (text : List Char) :
    List (Match × Nat × Nat) :=
  (findMatches m text).map (fun mt => (mt, getLineCol text mt.start))

/-- One replacement step of `replace_all`:
`result[:start] + target + result[end:]`. -/
def replaceOne (text : List Char) (m : Match) : List Char :=
  text.take m.start ++ m.target ++ text.drop m.stop

/-- `Matcher.replace_all`: collect the resolved matches, return the text
unchanged when there are none, otherwise apply them from the end of the text
toward the beginning (sorted by start descending). -/
def replaceAll (mr : Matcher) (text : List Char) : List Char :=
  let ms := findMatches mr text
  if ms.isEmpty then text
  else (sortBy descLE ms).foldl replaceOne text

/-- Python `text.split("\n")` on a character list. -/
def splitLines : List Char → List (List Char)
  | [] => [[]]
  | c :: cs =>
    if c = '\n' then [] :: splitLines cs
    else
      match splitLines cs with
      | [] => [[c]]
      | l :: ls => (c :: l) :: ls

/-- Python `"\n".join(lines)` on character lists. -/
def joinLines : List (List Char) → List Char
  | [] => []
  | [l] => l
  | l :: ls => l ++ '\n' :: joinLines ls

/-- `converter._replace_with_ignores`: whole-text `replace_all` when no lines
are ignored, otherwise split on `'\n'`, keep each ignored line verbatim and
run `replace_all` on every other line (1-based numbering), re-joining with
`'\n'`. -/
def replaceWithIgnores (mr : Matcher) (text : List Char)
    (ignored : List Nat) : List Char :=
  if ignored.isEmpty then replaceAll mr text
  else
    joinLines
      ((splitLines text).enum.map (fun p =>
        if (p.1 + 1) ∈ ignored then p.2 else replaceAll mr p.2))

/-- `converter.convert_text`: drop matches whose line is ignored from the
report; when fixing and some match survives, substitute via
`_replace_with_ignores`. -/
def convertText (mr : Matcher) (text : List Char) (fix : Bool)
    (ignored : List Nat) : List Char × List (Match × Nat × Nat) :=
  let kept := (findMatchesWithLines mr text).filter
    (fun t => ¬ t.2.1 ∈ ignored)
  let text' :=
    if fix ∧ ¬ kept.isEmpty then replaceWithIgnores mr text ignored
    else text
  (text', kept)

/-- Spec-side reconstruction for the replacement guarantee ("every resolved
span is replaced by its target and no other text is altered"): walk the
matches left to right, copying the text between spans verbatim and emitting
each target in place of its span.  `pos` is the first offset not yet
emitted. -/
def specSubstitute (text : List Char) (pos : Nat) : List Match → List Char
  | [] => text.drop pos
  | m :: rest =>
    (text.drop pos).take (m.start - pos) ++ m.target ++
      specSubstitute text m.stop rest

/-- Translation of a match by `k` offsets, used to relate matches of a line
to matches of the whole text. -/
def shiftMatch (k : Nat) (m : Match) : Match :=
  ⟨m.start + k, m.stop + k, m.source, m.target⟩

/-! ### Stable sort lemmas -/

theorem insertLe_perm (le : α → α → Bool) (x : α) (l : List α) :
    (insertLe le x l).Perm (x :: l) := by
  induction l with
  | nil => simp [insertLe]
  | cons y ys ih =>
    simp only [insertLe]
    by_cases h : le x y
    · simp [h]
    · simp only [h, if_neg, Bool.false_eq_true, if_false]
      exact (ih.cons y).trans (List.Perm.swap x y ys)

theorem sortBy_perm (le : α → α → Bool) (l : List α) :
    (sortBy le l).Perm l := by
  induction l with
  | nil => simp [sortBy]
  | cons x xs ih =>
    exact (insertLe_perm le x (sortBy le xs)).trans (ih.cons x)

theorem mem_insertLe (le : α → α → Bool) (x : α) (l : List α) (b : α) :
    b ∈ insertLe le x l ↔ b = x ∨ b ∈ l := by
  rw [(insertLe_perm le x l).mem_iff]
  simp

theorem mem_sortBy (le : α → α → Bool) (l : List α) (b : α) :
    b ∈ sortBy le l ↔ b ∈ l :=
  (sortBy_perm le l).mem_iff

theorem pairwise_insertLe (le : α → α → Bool)
    (htot : ∀ a b, le a b = true ∨ le b a = true)
    (htrans : ∀ a b c, le a b = true → le b c = true → le a c = true)
    (x : α) (l : List α) (hl : l.Pairwise (fun a b => le a b = true)) :
    (insertLe le x l).Pairwise (fun a b => le a b = true) := by
  induction l with
  | nil => simp [insertLe]
  | cons y ys ih =>
    rcases List.pairwise_cons.mp hl with ⟨hy, hys⟩
    simp only [insertLe]
    by_cases h : le x y = true
    · rw [if_pos h]
      refine List.pairwise_cons.mpr ⟨?_, hl⟩
      intro b hb
      rcases List.mem_cons.mp hb with rfl | hb
      · exact h
      · exact htrans x y b h (hy b hb)
    · rw [if_neg h]
      refine List.pairwise_cons.mpr ⟨?_, ih hys⟩
      intro b hb
      rcases (mem_insertLe le x ys b).mp hb with rfl | hb
      · rcases htot y b with hyb | hby
        · exact hyb
        · exact absurd hby h
      · exact hy b hb

theorem pairwise_sortBy (le : α → α → Bool)
    (htot : ∀ a b, le a b = true ∨ le b a = true)
    (htrans : ∀ a b c, le a b = true → le b c = true → le a c = true)
    (l : List α) :
    (sortBy le l).Pairwise (fun a b => le a b = true) := by
  induction l with
  | nil => simp [sortBy]
  | cons x xs ih => exact pairwise_insertLe le htot htrans x _ ih

/-- Two sorted lists that are permutations of each other are equal, provided
`le` is antisymmetric on the elements involved.  This pins down the result of
any sort by `le` independently of the algorithm. -/
theorem sorted_perm_eq_of (le : α → α → Bool) :
    ∀ {l₁ l₂ : List α}, l₁.Perm l₂ →
      l₁.Pairwise (fun a b => le a b = true) →
      l₂.Pairwise (fun a b => le a b = true) →
      (∀ a ∈ l₁, ∀ b ∈ l₁, le a b = true → le b a = true → a = b) →
      l₁ = l₂ := by
  intro l₁
  induction l₁ with
  | nil =>
    intro l₂ hp _ _ _
    exact (hp.symm.eq_nil).symm
  | cons a l₁ ih =>
    intro l₂ hp h1 h2 hanti
    cases l₂ with
    | nil => exact absurd hp.eq_nil (by simp)
    | cons b l₂ =>
      have hab : a = b := by
        by_cases hq : a = b
        · exact hq
        · have ha2 : a ∈ b :: l₂ := hp.mem_iff.mp (by simp)
          have hb1 : b ∈ a :: l₁ := hp.mem_iff.mpr (by simp)
          have ha2' : a ∈ l₂ := by
            rcases List.mem_cons.mp ha2 with h | h
            · exact absurd h hq
            · exact h
          have hb1' : b ∈ l₁ := by
            rcases List.mem_cons.mp hb1 with h | h
            · exact absurd h.symm hq
            · exact h
          have hba : le b a = true :=
            (List.pairwise_cons.mp h2).1 a ha2'
          have hab' : le a b = true :=
            (List.pairwise_cons.mp h1).1 b hb1'
          exact hanti a (by simp) b (by simp [hb1']) hab' hba
      subst hab
      have htail := hp.cons_inv
      have := ih htail (List.pairwise_cons.mp h1).2 (List.pairwise_cons.mp h2).2
        (fun x hx y hy => hanti x (by simp [hx]) y (by simp [hy]))
      rw [this]

theorem occLE_total (a b : Match) : occLE a b = true ∨ occLE b a = true := by
  simp only [occLE, decide_eq_true_eq]
  omega

theorem occLE_trans (a b c : Match) :
    occLE a b = true → occLE b c = true → occLE a c = true := by
  simp only [occLE, decide_eq_true_eq]
  omega

theorem descLE_total (a b : Match) : descLE a b = true ∨ descLE b a = true := by
  simp only [descLE, decide_eq_true_eq]
  omega

theorem descLE_trans (a b c : Match) :
    descLE a b = true → descLE b c = true → descLE a c = true := by
  simp only [descLE, decide_eq_true_eq]
  omega

/-! ### Occurrence facts -/

theorem automatonIter_facts {aut : List (List Char × List Char)}
    {text : List Char} {m : Match} (hm : m ∈ automatonIter aut text) :
    (m.source, m.target) ∈ aut ∧ m.stop = m.start + m.source.length ∧
      textSeg text m.start m.stop = m.source ∧ m.start < text.length ∧
      m.stop ≤ text.length := by
  simp only [automatonIter, List.mem_flatMap, List.mem_range,
    List.mem_filterMap] at hm
  obtain ⟨s, hs, p, hp, hcond⟩ := hm
  rw [Option.ite_none_right_eq_some] at hcond
  obtain ⟨htake, heq⟩ := hcond
  have heq' := Option.some.inj heq
  subst heq'
  have hlen : p.1.length ≤ text.length - s := by
    have := congrArg List.length htake
    simp only [List.length_take, List.length_drop] at this
    omega
  refine ⟨by simpa using hp, by simp, ?_, hs, by simp; omega⟩
  simpa [textSeg] using htake

/-! ### Walk lemmas -/

theorem resolveWalk_subset (prot : List Nat) :
    ∀ (la : Int) (ms : List Match) (m' : Match),
      m' ∈ resolveWalk prot la ms → m' ∈ ms := by
  intro la ms
  induction ms generalizing la with
  | nil => simp [resolveWalk]
  | cons m rest ih =>
    intro m' h
    simp only [resolveWalk] at h
    split at h
    · split at h
      · exact List.mem_cons_of_mem _ (ih _ _ h)
      · split at h
        · rcases List.mem_cons.mp h with h1 | h2
          · exact h1 ▸ List.mem_cons_self _ _
          · exact List.mem_cons_of_mem _ (ih _ _ h2)
        · exact List.mem_cons_of_mem _ (ih _ _ h)
    · exact List.mem_cons_of_mem _ (ih _ _ h)

theorem resolveWalk_nonid (prot : List Nat) :
    ∀ (la : Int) (ms : List Match) (m' : Match),
      m' ∈ resolveWalk prot la ms → ¬ m'.source = m'.target := by
  intro la ms
  induction ms generalizing la with
  | nil => simp [resolveWalk]
  | cons m rest ih =>
    intro m' h
    simp only [resolveWalk] at h
    split at h
    · split at h
      · exact ih _ _ h
      · rename_i hni
        split at h
        · rcases List.mem_cons.mp h with h1 | h2
          · subst h1; assumption
          · exact ih _ _ h2
        · exact ih _ _ h
    · exact ih _ _ h

theorem resolveWalk_chain (prot : List Nat) :
    ∀ (ms : List Match) (la : Int),
      (∀ m ∈ ms, m.start < m.stop) →
      (∀ m' ∈ resolveWalk prot la ms, la ≤ (m'.start : Int)) ∧
        List.Chain' (fun a b => a.start < b.start ∧ a.stop ≤ b.start)
          (resolveWalk prot la ms) := by
  intro ms
  induction ms with
  | nil => simp [resolveWalk]
  | cons m rest ih =>
    intro la hlt
    have hmlt : m.start < m.stop := hlt m (by simp)
    have hrest : ∀ x ∈ rest, x.start < x.stop :=
      fun x hx => hlt x (List.mem_cons_of_mem _ hx)
    simp only [resolveWalk]
    split
    · rename_i hguard
      split
      · exact ih la hrest
      · split
        · -- emit m, continue from m.stop
          obtain ⟨ihmem, ihch⟩ := ih (m.stop : Int) hrest
          constructor
          · intro m' hm'
            rcases List.mem_cons.mp hm' with rfl | hm'
            · exact hguard
            · have := ihmem m' hm'
              have : (m.stop : Int) ≤ m'.start := this
              omega
          · rw [List.chain'_cons']
            refine ⟨?_, ihch⟩
            intro b hb
            have hbmem : b ∈ resolveWalk prot (m.stop : Int) rest :=
              List.mem_of_mem_head? hb
            have hble := ihmem b hbmem
            constructor
            · omega
            · omega
        · -- identity claims the span, nothing emitted
          obtain ⟨ihmem, ihch⟩ := ih (m.stop : Int) hrest
          refine ⟨?_, ihch⟩
          intro m' hm'
          have := ihmem m' hm'
          omega
    · exact ih la hrest

/-! ### Facts about every resolved match -/

theorem buildAutomaton_mem {terms : List (List Char × List Char)}
    {p : List Char × List Char} (hp : p ∈ buildAutomaton terms) :
    p ∈ terms ∧ ¬ p.1 = [] := by
  have := List.mem_filter.mp hp
  exact ⟨this.1, by simpa using this.2⟩

theorem sorted_occ_lt {terms : List (List Char × List Char)}
    {text : List Char} :
    ∀ m ∈ sortBy occLE (automatonIter (buildAutomaton terms) text),
      m.start < m.stop := by
  intro m hm
  have hm' := (mem_sortBy _ _ _).mp hm
  obtain ⟨hmem, hstop, -, -, -⟩ := automatonIter_facts hm'
  have hne : ¬ m.source = [] := (buildAutomaton_mem hmem).2
  have : 0 < m.source.length := List.length_pos.mpr hne
  omega

theorem findMatches_mem_facts {terms : List (List Char × List Char)}
    {text : List Char} {m : Match}
    (hm : m ∈ findMatches (matcherInit terms) text) :
    (m.source, m.target) ∈ terms ∧ ¬ m.source = [] ∧
      m.stop = m.start + m.source.length ∧
      textSeg text m.start m.stop = m.source ∧ m.stop ≤ text.length ∧
      ¬ m.source = m.target := by
  have hni := hm
  simp only [findMatches, matcherInit] at hm hni
  split at hm
  · simp at hm
  · have hsub := resolveWalk_subset _ _ _ _ hm
    have hnid := resolveWalk_nonid _ _ _ _ hm
    have hit := (mem_sortBy _ _ _).mp hsub
    obtain ⟨hmem, hstop, hseg, -, hle⟩ := automatonIter_facts hit
    obtain ⟨hterms, hne⟩ := buildAutomaton_mem hmem
    exact ⟨hterms, hne, hstop, hseg, hle, hnid⟩

/-- C7: for every mapping and every text, `find_matches` returns matches in
strictly ascending start order, pairwise non-overlapping (each match's start
is at least the previous match's end); every match spans exactly its source
(`stop - start = length source` and `text[start:stop] = source`, in
particular within the text's bounds) and no returned match is an identity
(`source ≠ target`). -/
theorem findMatches_chain (terms : List (List Char × List Char))
    (text : List Char) :
    List.Chain' (fun a b => a.start < b.start ∧ a.stop ≤ b.start)
      (findMatches (matcherInit terms) text) := by
  simp only [findMatches, matcherInit]
  split
  · simp
  · exact (resolveWalk_chain _ _ _ sorted_occ_lt).2

theorem C7_output_invariants (terms : List (List Char × List Char))
    (text : List Char) :
    List.Chain' (fun a b => a.start < b.start ∧ a.stop ≤ b.start)
      (findMatches (matcherInit terms) text) ∧
    ∀ m ∈ findMatches (matcherInit terms) text,
      m.stop = m.start + m.source.length ∧
      textSeg text m.start m.stop = m.source ∧ m.stop ≤ text.length ∧
      ¬ m.source = m.target := by
  refine ⟨findMatches_chain terms text, ?_⟩
  intro m hm
  obtain ⟨-, -, hstop, hseg, hle, hnid⟩ := findMatches_mem_facts hm
  exact ⟨hstop, hseg, hle, hnid⟩

/-- C1: with the mapping `{"AB": "ZZ", "BC": "BC"}` and the text `"ABC"`,
`find_matches` returns no matches at all — the non-identity occurrence
`AB→ZZ` over `[0,2)` is suppressed because offset `1` lies in the protected
span `[1,3)` of the identity occurrence `BC→BC`, and identity occurrences
are themselves never emitted. -/
theorem C1_identity_protection :
    findMatches (matcherInit [(['A', 'B'], ['Z', 'Z']),
      (['B', 'C'], ['B', 'C'])]) ['A', 'B', 'C'] = [] := by decide

/-- C2: with the identity-free mapping `{"AB": "X", "ABC": "Y"}` and the
text `"ABC"`, `find_matches` returns exactly one match, `ABC→Y` at offset
`0`: among occurrences starting at the same offset the longest is sorted
first, and the shorter `AB` is then skipped as overlapping. -/
theorem C2_longest_match :
    findMatches (matcherInit [(['A', 'B'], ['X']), (['A', 'B', 'C'], ['Y'])])
      ['A', 'B', 'C'] = [⟨0, 3, ['A', 'B', 'C'], ['Y']⟩] := by decide

/-- C8: when a non-identity occurrence at the head of the walk is skipped
because its span touches a protected offset, the walk continues with the
same `last_end` cursor — the skipped occurrence claims no text; and in the
concrete run with mapping `{"ABC": "X", "BC": "Y", "A": "A"}` on `"ABC"`,
`ABC→X` is protection-skipped yet `BC→Y` at `[1,3)` is still emitted. -/
theorem C8_protection_skip (prot : List Nat) (la : Int) (m : Match)
    (rest : List Match) (hg : la ≤ (m.start : Int))
    (hni : ¬ m.source = m.target)
    (hp : ((List.range' m.start (m.stop - m.start)).any
      (fun i => prot.contains i)) = true) :
    resolveWalk prot la (m :: rest) = resolveWalk prot la rest ∧
    findMatches (matcherInit [(['A', 'B', 'C'], ['X']), (['B', 'C'], ['Y']),
      (['A'], ['A'])]) ['A', 'B', 'C'] = [⟨1, 3, ['B', 'C'], ['Y']⟩] := by
  constructor
  · simp only [resolveWalk]
    rw [if_pos hg, if_pos ⟨hni, hp⟩]
  · decide

/-- Witness for C8 at the concrete skipped occurrence `ABC→X` over `[0,3)`
with protected offset `0` (from the identity `A→A`). -/
theorem C8_protection_skip_witness :
    resolveWalk [0] (-1) [⟨0, 3, ['A', 'B', 'C'], ['X']⟩] =
      resolveWalk [0] (-1) [] ∧
    findMatches (matcherInit [(['A', 'B', 'C'], ['X']), (['B', 'C'], ['Y']),
      (['A'], ['A'])]) ['A', 'B', 'C'] = [⟨1, 3, ['B', 'C'], ['Y']⟩] :=
  C8_protection_skip [0] (-1) ⟨0, 3, ['A', 'B', 'C'], ['X']⟩ []
    (by decide) (by decide) (by decide)

/-- C3 counterexample: constructing the index from the mapping
`{"": "X"}` — which contains an empty source key — succeeds; no
`ConfigurationError` is raised (no such validation, nor such an error class,
exists anywhere in the code; pyahocorasick's `add_word` silently refuses the
empty key). -/
theorem C3_counterexample :
    buildIndex [([], ['X'])] = Except.ok (matcherInit [([], ['X'])]) := rfl

/-- C3 amended: construction never raises — `BuildIndex` returns `ok` for
every mapping: for a mapping containing an empty source key (no
`ConfigurationError` or any other validation exists; `add_word` merely
refuses the empty key during the automaton build) just as for a mapping
with only non-empty source keys. -/
theorem C3_amended (terms : List (List Char × List Char)) :
    buildIndex terms = Except.ok (matcherInit terms) := rfl

/-- C10 counterexample: `__init__` stores `self.terms` as a live reference
to the caller's dict, and `find_matches` consults it through the
`if not self.terms` guard.  Build the index from `{"AB": "X"}` and scan
`"AB"`: one match.  The caller then clears its dict — the matcher state now
holds an empty `terms` alias next to the unchanged automaton — and the same
scan returns `[]`: the two scans differ, refuting scan independence under
caller mutation. -/
theorem C10_counterexample :
    findMatches ⟨[(['A', 'B'], ['X'])], buildAutomaton [(['A', 'B'], ['X'])]⟩
        ['A', 'B'] = [⟨0, 2, ['A', 'B'], ['X']⟩] ∧
    findMatches ⟨[], buildAutomaton [(['A', 'B'], ['X'])]⟩ ['A', 'B'] = [] ∧
    ¬ findMatches ⟨[(['A', 'B'], ['X'])], buildAutomaton [(['A', 'B'], ['X'])]⟩
        ['A', 'B'] =
      findMatches ⟨[], buildAutomaton [(['A', 'B'], ['X'])]⟩ ['A', 'B'] := by
  decide

/-- C10 amended: `find_matches` is a pure function of the matcher state and
the text (repeated scans agree and nothing is mutated), and it depends on
the aliased `self.terms` only through the emptiness guard — so a caller
mutation of the mapping performed after construction leaves every scan's
result unchanged provided it preserves the mapping's emptiness status;
all matching data comes from the automaton compiled at build time. -/
theorem C10_amended (orig mutated aut : List (List Char × List Char))
    (text : List Char) (h : orig.isEmpty = mutated.isEmpty) :
    findMatches ⟨orig, aut⟩ text = findMatches ⟨mutated, aut⟩ text := by
  simp only [findMatches, h]

/-- Witness for C10 amended: a mutation that appends the pair `("CD", "E")`
to the caller's non-empty dict keeps the scan of `"AB"` unchanged. -/
theorem C10_amended_witness :
    ([(['A', 'B'], ['X'])] : List (List Char × List Char)).isEmpty =
      ([(['A', 'B'], ['X']), (['C', 'D'], ['E'])] :
        List (List Char × List Char)).isEmpty ∧
    findMatches ⟨[(['A', 'B'], ['X'])], buildAutomaton [(['A', 'B'], ['X'])]⟩
        ['A', 'B'] =
      findMatches ⟨[(['A', 'B'], ['X']), (['C', 'D'], ['E'])],
        buildAutomaton [(['A', 'B'], ['X'])]⟩ ['A', 'B'] :=
  ⟨by decide, C10_amended _ _ _ _ (by decide)⟩

/-- C6: if after substitution no rule's (non-empty) source term occurs at
any offset of the substituted text — no source is capable of re-triggering —
then a second scan finds nothing: `find_matches` on
`replace_all(text)` yields zero matches. -/
theorem findMatches_eq_nil_of_no_occ (terms : List (List Char × List Char))
    (t : List Char)
    (h : ∀ p ∈ terms, ∀ s < t.length, ¬ textSeg t s (s + p.1.length) = p.1) :
    findMatches (matcherInit terms) t = [] := by
  have hiter : automatonIter (buildAutomaton terms) t = [] := by
    simp only [automatonIter]
    rw [List.flatMap_eq_nil_iff]
    intro s hs
    rw [List.mem_range] at hs
    rw [List.filterMap_eq_nil_iff]
    intro p hp
    obtain ⟨hpt, -⟩ := buildAutomaton_mem hp
    rw [ite_eq_right_iff]
    intro htake
    exfalso
    refine h p hpt s hs ?_
    simpa [textSeg] using htake
  simp only [findMatches, matcherInit, hiter]
  split
  · rfl
  · rfl

theorem C6_idempotence (terms : List (List Char × List Char))
    (text : List Char)
    (h : ∀ p ∈ terms,
      ∀ s < (replaceAll (matcherInit terms) text).length,
        ¬ textSeg (replaceAll (matcherInit terms) text) s
            (s + p.1.length) = p.1) :
    findMatches (matcherInit terms)
      (replaceAll (matcherInit terms) text) = [] :=
  findMatches_eq_nil_of_no_occ terms _ h

/-! ### Replacement machinery -/

theorem findMatches_pairwise (terms : List (List Char × List Char))
    (text : List Char) :
    List.Pairwise (fun a b => a.start < b.start ∧ a.stop ≤ b.start)
      (findMatches (matcherInit terms) text) := by
  haveI : IsTrans Match (fun a b => a.start < b.start ∧ a.stop ≤ b.start) :=
    ⟨fun a b c hab hbc => ⟨by omega, by omega⟩⟩
  exact List.chain'_iff_pairwise.mp (findMatches_chain terms text)

theorem pairwise_start_inj {ms : List Match}
    (h : ms.Pairwise (fun a b => a.start < b.start)) :
    ∀ a ∈ ms, ∀ b ∈ ms, a.start = b.start → a = b := by
  induction ms with
  | nil => simp
  | cons x xs ih =>
    obtain ⟨hx, hxs⟩ := List.pairwise_cons.mp h
    intro a ha b hb heq
    rcases List.mem_cons.mp ha with ha1 | ha2
    · rcases List.mem_cons.mp hb with hb1 | hb2
      · rw [ha1, hb1]
      · rw [ha1] at heq ⊢
        exact absurd heq (by have := hx b hb2; omega)
    · rcases List.mem_cons.mp hb with hb1 | hb2
      · rw [hb1] at heq ⊢
        exact absurd heq.symm (by have := hx a ha2; omega)
      · exact ih hxs a ha2 b hb2 heq

/-- On a list with strictly ascending starts, the descending stable sort of
`replace_all` is exactly the reverse of the list. -/
theorem sortBy_descLE_eq_reverse {ms : List Match}
    (h : ms.Pairwise (fun a b => a.start < b.start)) :
    sortBy descLE ms = ms.reverse := by
  refine sorted_perm_eq_of descLE
    ((sortBy_perm descLE ms).trans (List.reverse_perm ms).symm)
    (pairwise_sortBy descLE descLE_total descLE_trans ms) ?_ ?_
  · rw [List.pairwise_reverse]
    exact h.imp (fun hab => by simp only [descLE, decide_eq_true_eq]; omega)
  · intro a ha b hb hab hba
    have ha' := (mem_sortBy descLE ms a).mp ha
    have hb' := (mem_sortBy descLE ms b).mp hb
    simp only [descLE, decide_eq_true_eq] at hab hba
    exact pairwise_start_inj h a ha' b hb' (by omega)

theorem take_split (text : List Char) {pos n : Nat} (h : pos ≤ n) :
    text.take n = text.take pos ++ (text.drop pos).take (n - pos) := by
  have : n = pos + (n - pos) := by omega
  rw [this, List.take_add]
  simp

/-- Folding `replace_all`'s end-to-start replacement over matches with
strictly ascending, non-overlapping, in-bounds spans produces exactly the
spec-side left-to-right reconstruction. -/
theorem foldDesc_spec (text : List Char) :
    ∀ (ms : List Match) (pos : Nat),
      (∀ m ∈ ms, pos ≤ m.start ∧ m.start ≤ m.stop ∧ m.stop ≤ text.length) →
      ms.Pairwise (fun a b => a.start < b.start ∧ a.stop ≤ b.start) →
      (ms.reverse).foldl replaceOne text =
        text.take pos ++ specSubstitute text pos ms := by
  intro ms
  induction ms with
  | nil =>
    intro pos _ _
    simp [specSubstitute]
  | cons m rest ih =>
    intro pos hmem hpw
    obtain ⟨hm, hrest⟩ := List.pairwise_cons.mp hpw
    obtain ⟨hpos, hss, hsl⟩ := hmem m (List.mem_cons_self _ _)
    have hrestmem : ∀ m' ∈ rest,
        m.stop ≤ m'.start ∧ m'.start ≤ m'.stop ∧ m'.stop ≤ text.length := by
      intro m' hm'
      obtain ⟨-, h2, h3⟩ := hmem m' (List.mem_cons_of_mem _ hm')
      exact ⟨(hm m' hm').2, h2, h3⟩
    have ihr := ih m.stop (fun m' hm' => hrestmem m' hm') hrest
    rw [List.reverse_cons, List.foldl_append, ihr]
    simp only [List.foldl_cons, List.foldl_nil, replaceOne]
    have hlen : (text.take m.stop).length = m.stop := by
      simp
      omega
    have h1 : (text.take m.stop ++ specSubstitute text m.stop rest).take
        m.start = text.take m.start := by
      rw [List.take_append_of_le_length (by omega), List.take_take]
      congr 1
      omega
    have h2 : (text.take m.stop ++ specSubstitute text m.stop rest).drop
        m.stop = specSubstitute text m.stop rest := by
      rw [List.drop_append_of_le_length (by omega)]
      have : (text.take m.stop).drop m.stop = [] := by
        apply List.drop_eq_nil_of_le
        omega
      rw [this, List.nil_append]
    rw [h1, h2]
    simp only [specSubstitute]
    rw [take_split text hpos]
    simp [List.append_assoc]

/-- `replace_all` computes exactly the spec-side reconstruction of the text
from its resolved matches. -/
theorem replaceAll_eq_spec (terms : List (List Char × List Char))
    (text : List Char) :
    replaceAll (matcherInit terms) text =
      specSubstitute text 0 (findMatches (matcherInit terms) text) := by
  simp only [replaceAll]
  split
  · rename_i hemp
    rw [List.isEmpty_iff.mp hemp]
    simp [specSubstitute]
  · have hpw := findMatches_pairwise terms text
    rw [sortBy_descLE_eq_reverse (hpw.imp (fun h => h.1))]
    have := foldDesc_spec text (findMatches (matcherInit terms) text) 0
      (fun m hm => by
        obtain ⟨-, -, hstop, -, hle, -⟩ := findMatches_mem_facts hm
        refine ⟨Nat.zero_le _, by omega, hle⟩)
      hpw
    rw [this]
    simp

/-! ### Scan decomposition across a newline boundary

For newline-free patterns, no occurrence can cross the `'\n'` at the join of
`l ++ '\n' :: rest`, so the occurrence scan of the whole text is the scan of
`l` followed by the scan of `rest` translated past the newline. -/

theorem automatonIter_split (aut : List (List Char × List Char))
    (haut : ∀ p ∈ aut, ¬ p.1 = [] ∧ ¬ '\n' ∈ p.1) (l rest : List Char) :
    automatonIter aut (l ++ '\n' :: rest) =
      automatonIter aut l ++
        (automatonIter aut rest).map (shiftMatch (l.length + 1)) := by
  have hF : ∀ s : Nat, s < l.length →
      (aut.filterMap (fun p =>
        if ((l ++ '\n' :: rest).drop s).take p.1.length = p.1 then
          some (Match.mk s (s + p.1.length) p.1 p.2) else none)) =
      (aut.filterMap (fun p =>
        if (l.drop s).take p.1.length = p.1 then
          some (Match.mk s (s + p.1.length) p.1 p.2) else none)) := by
    intro s hs
    apply List.filterMap_congr
    intro p hp
    obtain ⟨hne, hnl⟩ := haut p hp
    refine if_congr ?_ rfl rfl
    rw [List.drop_append_of_le_length (Nat.le_of_lt hs)]
    by_cases hcase : p.1.length ≤ l.length - s
    · rw [List.take_append_of_le_length (by rw [List.length_drop]; exact hcase)]
    · refine iff_of_false ?_ ?_
      · intro hcontra
        apply hnl
        have hmem : '\n' ∈ (l.drop s ++ '\n' :: rest).take p.1.length := by
          have hsplit : p.1.length =
              (l.drop s).length + (p.1.length - (l.drop s).length) := by
            rw [List.length_drop]
            omega
          rw [hsplit, List.take_append]
          obtain ⟨j, hj⟩ : ∃ j, p.1.length - (l.drop s).length = j + 1 :=
            ⟨p.1.length - (l.drop s).length - 1, by
              rw [List.length_drop]; omega⟩
          rw [hj, List.take_succ_cons]
          simp
        rw [hcontra] at hmem
        exact hmem
      · intro hcontra
        have := congrArg List.length hcontra
        simp only [List.length_take, List.length_drop] at this
        omega
  have hFmid : (aut.filterMap (fun p =>
      if ((l ++ '\n' :: rest).drop l.length).take p.1.length = p.1 then
        some (Match.mk l.length (l.length + p.1.length) p.1 p.2) else none)) = [] := by
    rw [List.filterMap_eq_nil_iff]
    intro p hp
    obtain ⟨hne, hnl⟩ := haut p hp
    rw [ite_eq_right_iff]
    intro htake
    exfalso
    apply hnl
    rw [List.drop_left l ('\n' :: rest)] at htake
    obtain ⟨j, hj⟩ : ∃ j, p.1.length = j + 1 :=
      ⟨p.1.length - 1, by have := List.length_pos.mpr hne; omega⟩
    rw [hj, List.take_succ_cons] at htake
    rw [← htake]
    simp
  have hFshift : ∀ s' : Nat, s' < rest.length →
      (aut.filterMap (fun p =>
        if ((l ++ '\n' :: rest).drop (l.length + (1 + s'))).take p.1.length
            = p.1 then
          some (Match.mk (l.length + (1 + s'))
            (l.length + (1 + s') + p.1.length) p.1 p.2)
        else none)) =
      ((aut.filterMap (fun p =>
        if (rest.drop s').take p.1.length = p.1 then
          some (Match.mk s' (s' + p.1.length) p.1 p.2) else none)).map
            (shiftMatch (l.length + 1))) := by
    intro s' hs'
    rw [List.map_filterMap]
    apply List.filterMap_congr
    intro p hp
    have hdrop : (l ++ '\n' :: rest).drop (l.length + (1 + s')) =
        rest.drop s' := by
      have h1 : l ++ '\n' :: rest = (l ++ ['\n']) ++ rest := by simp
      have h2 : l.length + (1 + s') = (l ++ ['\n']).length + s' := by
        simp
        omega
      rw [h1, h2, List.drop_append]
    rw [hdrop]
    by_cases hc : (rest.drop s').take p.1.length = p.1
    · rw [if_pos hc, if_pos hc]
      simp only [Option.map_some', shiftMatch, Option.some.injEq,
        Match.mk.injEq, and_true]
      omega
    · rw [if_neg hc, if_neg hc]
      rfl
  have hlen : (l ++ '\n' :: rest).length = l.length + (1 + rest.length) := by
    simp only [List.length_append, List.length_cons]
    omega
  simp only [automatonIter]
  rw [hlen, List.range_add, List.flatMap_append, List.flatMap_map,
    List.range_add, List.flatMap_append, List.flatMap_map]
  have hr1 : List.range 1 = [0] := rfl
  rw [hr1, List.flatMap_cons]
  simp only [List.flatMap_nil, List.append_nil, Nat.add_zero]
  rw [hFmid, List.nil_append]
  congr 1
  · exact List.flatMap_congr (fun s hs => hF s (List.mem_range.mp hs))
  · rw [List.map_flatMap]
    exact List.flatMap_congr (fun s' hs' => hFshift s' (List.mem_range.mp hs'))

theorem Match.ext' {a b : Match} (h1 : a.start = b.start)
    (h2 : a.stop = b.stop) (h3 : a.source = b.source)
    (h4 : a.target = b.target) : a = b := by
  cases a
  cases b
  simp_all

/-- In a mapping with no duplicate source keys (a Python dict), a key
determines its value. -/
theorem nodup_keys_unique {l : List (List Char × List Char)}
    (h : (l.map Prod.fst).Nodup) {a b1 b2 : List Char}
    (h1 : (a, b1) ∈ l) (h2 : (a, b2) ∈ l) : b1 = b2 := by
  induction l with
  | nil => simp at h1
  | cons x xs ih =>
    simp only [List.map_cons, List.nodup_cons] at h
    rcases List.mem_cons.mp h1 with e1 | m1
    · rcases List.mem_cons.mp h2 with e2 | m2
      · rw [← e1] at e2
        exact (Prod.mk.injEq _ _ _ _ ▸ e2).2.symm
      · exfalso
        apply h.1
        rw [← e1]
        simpa using List.mem_map_of_mem Prod.fst m2
    · rcases List.mem_cons.mp h2 with e2 | m2
      · exfalso
        apply h.1
        rw [← e2]
        simpa using List.mem_map_of_mem Prod.fst m1
      · exact ih h.2 m1 m2

/-- With unique source keys, two occurrences that tie under the sort key
(same start, same length) are the same occurrence. -/
theorem automatonIter_inj {terms : List (List Char × List Char)}
    {text : List Char} (hnd : (terms.map Prod.fst).Nodup) :
    ∀ a ∈ automatonIter (buildAutomaton terms) text,
      ∀ b ∈ automatonIter (buildAutomaton terms) text,
        occLE a b = true → occLE b a = true → a = b := by
  intro a ha b hb hab hba
  obtain ⟨hat, hastop, haseg, -, -⟩ := automatonIter_facts ha
  obtain ⟨hbt, hbstop, hbseg, -, -⟩ := automatonIter_facts hb
  simp only [occLE, decide_eq_true_eq] at hab hba
  have hstart : a.start = b.start := by omega
  have hstop : a.stop = b.stop := by omega
  have hsrc : a.source = b.source := by
    rw [← haseg, ← hbseg, hstart, hstop]
  have hta : (a.source, a.target) ∈ terms := (buildAutomaton_mem hat).1
  have htb : (a.source, b.target) ∈ terms := by
    rw [hsrc]
    exact (buildAutomaton_mem hbt).1
  exact Match.ext' hstart hstop hsrc (nodup_keys_unique hnd hta htb)

/-- The stable sort distributes over a concatenation whose left part starts
strictly before the right part everywhere. -/
theorem sortBy_occLE_append {A C : List Match}
    (hsep : ∀ a ∈ A, ∀ c ∈ C, a.start < c.start)
    (hinj : ∀ a ∈ A ++ C, ∀ b ∈ A ++ C,
      occLE a b = true → occLE b a = true → a = b) :
    sortBy occLE (A ++ C) = sortBy occLE A ++ sortBy occLE C := by
  refine sorted_perm_eq_of occLE
    ((sortBy_perm occLE (A ++ C)).trans
      (((sortBy_perm occLE A).append (sortBy_perm occLE C)).symm))
    (pairwise_sortBy occLE occLE_total occLE_trans _) ?_ ?_
  · rw [List.pairwise_append]
    refine ⟨pairwise_sortBy occLE occLE_total occLE_trans A,
      pairwise_sortBy occLE occLE_total occLE_trans C, ?_⟩
    intro a ha c hc
    have ha' := (mem_sortBy occLE A a).mp ha
    have hc' := (mem_sortBy occLE C c).mp hc
    have := hsep a ha' c hc'
    simp only [occLE, decide_eq_true_eq]
    omega
  · intro a ha b hb
    exact hinj a ((mem_sortBy occLE _ a).mp ha) b ((mem_sortBy occLE _ b).mp hb)

theorem occLE_shift (k : Nat) (a b : Match) :
    occLE (shiftMatch k a) (shiftMatch k b) = occLE a b := by
  simp only [occLE, shiftMatch, decide_eq_decide]
  omega

/-- The stable sort commutes with a uniform translation of all spans. -/
theorem sortBy_occLE_map_shift {C : List Match} (k : Nat)
    (hinj : ∀ a ∈ C, ∀ b ∈ C,
      occLE a b = true → occLE b a = true → a = b) :
    sortBy occLE (C.map (shiftMatch k)) =
      (sortBy occLE C).map (shiftMatch k) := by
  refine sorted_perm_eq_of occLE
    ((sortBy_perm occLE _).trans ((sortBy_perm occLE C).map _).symm)
    (pairwise_sortBy occLE occLE_total occLE_trans _) ?_ ?_
  · rw [List.pairwise_map]
    exact (pairwise_sortBy occLE occLE_total occLE_trans C).imp
      (fun h => by rw [occLE_shift]; exact h)
  · intro a ha b hb hab hba
    have ha' := (mem_sortBy occLE _ a).mp ha
    have hb' := (mem_sortBy occLE _ b).mp hb
    obtain ⟨a', ha'', rfl⟩ := List.mem_map.mp ha'
    obtain ⟨b', hb'', rfl⟩ := List.mem_map.mp hb'
    rw [occLE_shift] at hab hba
    rw [hinj a' ha'' b' hb'' hab hba]

theorem mem_protectedOf {ms : List Match} {i : Nat} :
    i ∈ protectedOf ms ↔ ∃ m ∈ ms, m.source = m.target ∧
      i ∈ List.range' m.start (m.stop - m.start) := by
  simp only [protectedOf, List.mem_flatMap]
  constructor
  · rintro ⟨m, hm, hi⟩
    by_cases h : m.source = m.target
    · rw [if_pos h] at hi
      exact ⟨m, hm, h, hi⟩
    · rw [if_neg h] at hi
      simp at hi
  · rintro ⟨m, hm, h, hi⟩
    refine ⟨m, hm, ?_⟩
    rw [if_pos h]
    exact hi

/-- The walk only looks at the protected set through each occurrence's
overlap check, so two protected sets giving the same checks give the same
walk. -/
theorem resolveWalk_prot_congr {prot1 prot2 : List Nat} :
    ∀ (X : List Match) (la : Int),
      (∀ m ∈ X, ((List.range' m.start (m.stop - m.start)).any
          (fun i => prot1.contains i)) =
        ((List.range' m.start (m.stop - m.start)).any
          (fun i => prot2.contains i))) →
      resolveWalk prot1 la X = resolveWalk prot2 la X := by
  intro X
  induction X with
  | nil => intro la _; rfl
  | cons m rest ih =>
    intro la hch
    have hm := hch m (List.mem_cons_self _ _)
    have hrest := fun m' hm' => hch m' (List.mem_cons_of_mem _ hm')
    simp only [resolveWalk]
    rw [hm]
    split
    · split
      · exact ih la hrest
      · split
        · rw [ih _ hrest]
        · exact ih _ hrest
    · exact ih la hrest

/-- As long as the cursor is below every occurrence's start, its exact value
does not influence the walk. -/
theorem resolveWalk_init_le (prot : List Nat) :
    ∀ (Y : List Match) (la1 la2 : Int),
      (∀ m ∈ Y, la1 ≤ (m.start : Int)) →
      (∀ m ∈ Y, la2 ≤ (m.start : Int)) →
      resolveWalk prot la1 Y = resolveWalk prot la2 Y := by
  intro Y
  induction Y with
  | nil => intro la1 la2 _ _; rfl
  | cons m rest ih =>
    intro la1 la2 h1 h2
    simp only [resolveWalk]
    rw [if_pos (h1 m (List.mem_cons_self _ _)),
      if_pos (h2 m (List.mem_cons_self _ _))]
    split
    · exact ih la1 la2 (fun m' h => h1 m' (List.mem_cons_of_mem _ h))
        (fun m' h => h2 m' (List.mem_cons_of_mem _ h))
    · rfl

/-- The walk splits over a concatenation separated by a position `k'`: the
left part lies entirely at or before `k'` and the right part starts at or
after it. -/
theorem resolveWalk_append (prot : List Nat) :
    ∀ (X Y : List Match) (la k' : Int),
      (∀ m ∈ X, (m.stop : Int) ≤ k') →
      (∀ m ∈ Y, k' ≤ (m.start : Int)) → la ≤ k' →
      resolveWalk prot la (X ++ Y) =
        resolveWalk prot la X ++ resolveWalk prot k' Y := by
  intro X
  induction X with
  | nil =>
    intro Y la k' _ hY hla
    rw [List.nil_append]
    rw [show resolveWalk prot la ([] : List Match) = [] from rfl,
      List.nil_append]
    exact resolveWalk_init_le prot Y la k'
      (fun m hm => le_trans hla (hY m hm)) hY
  | cons x X' ih =>
    intro Y la k' hX hY hla
    have hx := hX x (List.mem_cons_self _ _)
    have hX' := fun m h => hX m (List.mem_cons_of_mem _ h)
    rw [List.cons_append]
    simp only [resolveWalk]
    split
    · split
      · exact ih Y la k' hX' hY hla
      · split
        · rw [ih Y (x.stop : Int) k' hX' hY hx, List.cons_append]
        · exact ih Y (x.stop : Int) k' hX' hY hx
    · exact ih Y la k' hX' hY hla

/-- The walk commutes with a uniform translation of all spans by `k`, as
long as the protection checks agree across the translation. -/
theorem resolveWalk_shift (protW protR : List Nat) (k : Nat) :
    ∀ (Y : List Match) (la : Int),
      (∀ m ∈ Y, ((List.range' (m.start + k) ((m.stop + k) - (m.start + k))).any
          (fun i => protW.contains i)) =
        ((List.range' m.start (m.stop - m.start)).any
          (fun i => protR.contains i))) →
      resolveWalk protW la (Y.map (shiftMatch k)) =
        (resolveWalk protR (la - (k : Int)) Y).map (shiftMatch k) := by
  intro Y
  induction Y with
  | nil => intro la _; rfl
  | cons m rest ih =>
    intro la hch
    have hm := hch m (List.mem_cons_self _ _)
    have hrest := fun m' hm' => hch m' (List.mem_cons_of_mem _ hm')
    simp only [List.map_cons, resolveWalk, shiftMatch]
    rw [hm]
    have hcast : ((m.stop + k : Nat) : Int) - (k : Int) = (m.stop : Int) := by
      push_cast
      ring
    by_cases hguard : la - (k : Int) ≤ (m.start : Int)
    · have hguard' : la ≤ ((m.start + k : Nat) : Int) := by
        push_cast
        omega
      rw [if_pos hguard', if_pos hguard]
      by_cases hcond : ¬ m.source = m.target ∧
          ((List.range' m.start (m.stop - m.start)).any
            (fun i => protR.contains i)) = true
      · rw [if_pos hcond, if_pos hcond]
        exact ih la hrest
      · rw [if_neg hcond, if_neg hcond]
        by_cases hni : ¬ m.source = m.target
        · rw [if_pos hni, if_pos hni, List.map_cons]
          congr 1
          rw [ih _ hrest, hcast]
        · rw [if_neg hni, if_neg hni]
          rw [ih _ hrest, hcast]
    · have hguard' : ¬ la ≤ ((m.start + k : Nat) : Int) := by
        push_cast
        push_cast at hguard
        omega
      rw [if_neg hguard', if_neg hguard]
      exact ih la hrest

theorem protectedOf_append (X Y : List Match) :
    protectedOf (X ++ Y) = protectedOf X ++ protectedOf Y :=
  List.flatMap_append X Y _

theorem protectedOf_lt {ms : List Match} {bound : Nat}
    (h : ∀ m ∈ ms, m.stop ≤ bound) : ∀ i ∈ protectedOf ms, i < bound := by
  intro i hi
  obtain ⟨m, hm, -, hr⟩ := mem_protectedOf.mp hi
  have h1 := List.mem_range'_1.mp hr
  have h2 := h m hm
  omega

theorem mem_protectedOf_map_shift {ms : List Match} {k i : Nat} :
    (k + i) ∈ protectedOf (ms.map (shiftMatch k)) ↔ i ∈ protectedOf ms := by
  rw [mem_protectedOf, mem_protectedOf]
  constructor
  · rintro ⟨sm, hsm, hid, hr⟩
    obtain ⟨m, hm, rfl⟩ := List.mem_map.mp hsm
    simp only [shiftMatch] at hid hr
    refine ⟨m, hm, hid, ?_⟩
    rw [List.mem_range'_1] at hr ⊢
    omega
  · rintro ⟨m, hm, hid, hr⟩
    refine ⟨shiftMatch k m, List.mem_map_of_mem _ hm, hid, ?_⟩
    simp only [shiftMatch]
    rw [List.mem_range'_1] at hr ⊢
    omega

theorem protectedOf_map_shift_ge {ms : List Match} {k : Nat} :
    ∀ i ∈ protectedOf (ms.map (shiftMatch k)), k ≤ i := by
  intro i hi
  obtain ⟨sm, hsm, -, hr⟩ := mem_protectedOf.mp hi
  obtain ⟨m, hm, rfl⟩ := List.mem_map.mp hsm
  simp only [shiftMatch] at hr
  rw [List.mem_range'_1] at hr
  omega

/-- An occurrence lying entirely below `k` never sees the part of the
protected set at or above `k`. -/
theorem any_contains_append_low {PL PS : List Nat} {k : Nat}
    (hPS : ∀ i ∈ PS, k ≤ i) (m : Match) (hm : m.stop ≤ k) :
    ((List.range' m.start (m.stop - m.start)).any
      (fun i => (PL ++ PS).contains i)) =
    ((List.range' m.start (m.stop - m.start)).any
      (fun i => PL.contains i)) := by
  rw [Bool.eq_iff_iff]
  simp only [List.any_eq_true]
  constructor
  · rintro ⟨i, hi, hc⟩
    refine ⟨i, hi, ?_⟩
    rw [List.elem_iff] at hc ⊢
    rw [List.mem_append] at hc
    rcases hc with h | h
    · exact h
    · exfalso
      have h1 := hPS i h
      have h2 := List.mem_range'_1.mp hi
      omega
  · rintro ⟨i, hi, hc⟩
    refine ⟨i, hi, ?_⟩
    rw [List.elem_iff] at hc ⊢
    rw [List.mem_append]
    exact Or.inl hc

/-- A translated occurrence sees exactly the translated protected set. -/
theorem any_contains_append_shift {PL PS PR : List Nat} {k : Nat}
    (hPL : ∀ i ∈ PL, i < k)
    (hPS : ∀ i, (k + i) ∈ PS ↔ i ∈ PR) (m : Match) :
    ((List.range' (m.start + k) ((m.stop + k) - (m.start + k))).any
      (fun i => (PL ++ PS).contains i)) =
    ((List.range' m.start (m.stop - m.start)).any
      (fun i => PR.contains i)) := by
  have hn : (m.stop + k) - (m.start + k) = m.stop - m.start := by omega
  rw [hn]
  have hrange : List.range' (m.start + k) (m.stop - m.start) =
      (List.range' m.start (m.stop - m.start)).map (fun x => k + x) := by
    rw [List.map_add_range']
    congr 1
    omega
  rw [hrange, List.any_map]
  rw [Bool.eq_iff_iff]
  simp only [List.any_eq_true, Function.comp]
  constructor
  · rintro ⟨i, hi, hc⟩
    refine ⟨i, hi, ?_⟩
    rw [List.elem_iff] at hc ⊢
    rw [List.mem_append] at hc
    rcases hc with h | h
    · exfalso
      have := hPL _ h
      omega
    · exact (hPS i).mp h
  · rintro ⟨i, hi, hc⟩
    refine ⟨i, hi, ?_⟩
    rw [List.elem_iff] at hc ⊢
    rw [List.mem_append]
    exact Or.inr ((hPS i).mpr hc)

/-- Core of the scan decomposition: the walk over sorted left-part
occurrences followed by translated right-part occurrences, against the
combined protected set, is the left walk against its own protected set
followed by the translated right walk against its own protected set. -/
theorem walk_core_split (PLx PSx PRx : List Nat) (SLx SCx : List Match)
    (k n1 : Nat) (hkn : k = n1 + 1)
    (hSL : ∀ m ∈ SLx, m.stop ≤ n1)
    (hPL : ∀ i ∈ PLx, i < k)
    (hPS : ∀ i ∈ PSx, k ≤ i)
    (hPSR : ∀ i, (k + i) ∈ PSx ↔ i ∈ PRx) :
    resolveWalk (PLx ++ PSx) (-1) (SLx ++ SCx.map (shiftMatch k)) =
      resolveWalk PLx (-1) SLx ++
        (resolveWalk PRx (-1) SCx).map (shiftMatch k) := by
  rw [resolveWalk_append (PLx ++ PSx) SLx (SCx.map (shiftMatch k)) (-1)
    (n1 : Int)
    (fun m hm => by exact_mod_cast hSL m hm)
    (fun m hm => by
      obtain ⟨c, hc, rfl⟩ := List.mem_map.mp hm
      simp only [shiftMatch]
      push_cast
      omega)
    (by omega)]
  rw [resolveWalk_prot_congr SLx (-1)
    (fun m hm => any_contains_append_low hPS m (by have := hSL m hm; omega))]
  rw [resolveWalk_shift (PLx ++ PSx) PRx k SCx (n1 : Int)
    (fun m hm => any_contains_append_shift hPL hPSR m)]
  rw [show ((n1 : Nat) : Int) - (k : Int) = -1 from by
    rw [hkn]
    push_cast
    ring]

/-- For newline-free patterns with unique keys, the resolved matches of
`l ++ '\n' :: rest` are the resolved matches of `l` followed by the resolved
matches of `rest` translated past the newline. -/
theorem findMatches_split (terms : List (List Char × List Char))
    (hnd : (terms.map Prod.fst).Nodup)
    (hnl : ∀ p ∈ terms, ¬ '\n' ∈ p.1) (l rest : List Char) :
    findMatches (matcherInit terms) (l ++ '\n' :: rest) =
      findMatches (matcherInit terms) l ++
        (findMatches (matcherInit terms) rest).map
          (shiftMatch (l.length + 1)) := by
  by_cases hemp : terms.isEmpty = true
  · simp [findMatches, matcherInit, hemp]
  · have haut : ∀ p ∈ buildAutomaton terms, ¬ p.1 = [] ∧ ¬ '\n' ∈ p.1 :=
      fun p hp => ⟨(buildAutomaton_mem hp).2, hnl p (buildAutomaton_mem hp).1⟩
    have hAfacts : ∀ m ∈ automatonIter (buildAutomaton terms) l,
        m.stop ≤ l.length ∧ m.start < m.stop := by
      intro m hm
      obtain ⟨hmem, hstop, -, -, hle⟩ := automatonIter_facts hm
      have hne : ¬ m.source = [] := (buildAutomaton_mem hmem).2
      have := List.length_pos.mpr hne
      exact ⟨hle, by omega⟩
    have hsplit := automatonIter_split (buildAutomaton terms) haut l rest
    have hinjW := @automatonIter_inj terms (l ++ '\n' :: rest) hnd
    rw [hsplit] at hinjW
    have hinjC := @automatonIter_inj terms rest hnd
    have hsep : ∀ a ∈ automatonIter (buildAutomaton terms) l,
        ∀ c ∈ (automatonIter (buildAutomaton terms) rest).map
          (shiftMatch (l.length + 1)), a.start < c.start := by
      intro a ha c hc
      obtain ⟨c', hc', rfl⟩ := List.mem_map.mp hc
      obtain ⟨h1, h2⟩ := hAfacts a ha
      simp only [shiftMatch]
      omega
    have hsort : sortBy occLE (automatonIter (buildAutomaton terms) l ++
        (automatonIter (buildAutomaton terms) rest).map
          (shiftMatch (l.length + 1))) =
        sortBy occLE (automatonIter (buildAutomaton terms) l) ++
          (sortBy occLE (automatonIter (buildAutomaton terms) rest)).map
            (shiftMatch (l.length + 1)) := by
      rw [sortBy_occLE_append hsep hinjW, sortBy_occLE_map_shift _ hinjC]
    have hSLfacts :
        ∀ m ∈ sortBy occLE (automatonIter (buildAutomaton terms) l),
          m.stop ≤ l.length :=
      fun m hm => (hAfacts m ((mem_sortBy _ _ _).mp hm)).1
    simp only [findMatches, matcherInit]
    rw [if_neg hemp, if_neg hemp, if_neg hemp]
    rw [hsplit, hsort, protectedOf_append]
    exact walk_core_split _ _ _ _ _ (l.length + 1) l.length rfl
      hSLfacts
      (fun i hi => by have := protectedOf_lt hSLfacts i hi; omega)
      protectedOf_map_shift_ge
      (fun i => mem_protectedOf_map_shift)

/-- C5: for every mapping and text, `replace_all` equals the spec-side
reconstruction over the matches of `find_matches`: each matched span
`[start, stop)` is replaced by its target and every character outside the
matched spans is copied unchanged; in particular, for the text `"zABw"`
containing exactly one occurrence of `"AB"` mapping to `"X"`, the result is
`"zXw"`. -/
theorem C5_exact_replacement (terms : List (List Char × List Char))
    (text : List Char) :
    replaceAll (matcherInit terms) text =
      specSubstitute text 0 (findMatches (matcherInit terms) text) ∧
    replaceAll (matcherInit [(['A', 'B'], ['X'])]) ['z', 'A', 'B', 'w'] =
      ['z', 'X', 'w'] :=
  ⟨replaceAll_eq_spec terms text, by decide⟩

/-! ### Line-by-line decomposition of the substitution -/

theorem specSubstitute_shift (pref rest : List Char) (k : Nat)
    (hk : pref.length = k) :
    ∀ (B : List Match) (pos : Nat),
      specSubstitute (pref ++ rest) (k + pos) (B.map (shiftMatch k)) =
        specSubstitute rest pos B := by
  subst hk
  intro B
  induction B with
  | nil =>
    intro pos
    simp only [List.map_nil, specSubstitute]
    rw [List.drop_append]
  | cons m B' ih =>
    intro pos
    simp only [List.map_cons, specSubstitute, shiftMatch]
    rw [List.drop_append]
    rw [show m.start + pref.length - (pref.length + pos) = m.start - pos
      from by omega]
    rw [show m.stop + pref.length = pref.length + m.stop from by omega]
    rw [ih m.stop]

theorem specSubstitute_split (l rest : List Char) (B : List Match) :
    ∀ (A : List Match) (pos : Nat),
      (∀ m ∈ A, m.start ≤ m.stop ∧ m.stop ≤ l.length) →
      A.Pairwise (fun a b => a.stop ≤ b.start) →
      (∀ m, A.head? = some m → pos ≤ m.start) →
      pos ≤ l.length →
      specSubstitute (l ++ '\n' :: rest) pos
          (A ++ B.map (shiftMatch (l.length + 1))) =
        specSubstitute l pos A ++ '\n' :: specSubstitute rest 0 B := by
  intro A
  induction A with
  | nil =>
    intro pos _ _ _ hpos
    simp only [List.nil_append, specSubstitute]
    cases B with
    | nil =>
      simp only [List.map_nil, specSubstitute]
      rw [List.drop_append_of_le_length hpos, List.drop_zero]
    | cons m B' =>
      simp only [List.map_cons, specSubstitute, shiftMatch]
      rw [List.drop_append_of_le_length hpos]
      have hlen2 : m.start + (l.length + 1) - pos =
          (l.drop pos).length + (1 + m.start) := by
        rw [List.length_drop]
        omega
      rw [hlen2, List.take_append]
      rw [show 1 + m.start = m.start + 1 from by omega, List.take_succ_cons]
      have hw : l ++ '\n' :: rest = (l ++ ['\n']) ++ rest := by simp
      rw [show m.stop + (l.length + 1) = (l.length + 1) + m.stop
        from by omega]
      rw [hw, specSubstitute_shift (l ++ ['\n']) rest (l.length + 1)
        (by simp) B' m.stop]
      simp [List.append_assoc]
  | cons a A' ih =>
    intro pos hmem hpw hhead hpos
    obtain ⟨ha1, ha2⟩ := hmem a (List.mem_cons_self _ _)
    have hpa : pos ≤ a.start := hhead a rfl
    simp only [List.cons_append, specSubstitute]
    rw [List.drop_append_of_le_length hpos]
    rw [List.take_append_of_le_length (by rw [List.length_drop]; omega)]
    have hih := ih a.stop (fun m hm => hmem m (List.mem_cons_of_mem _ hm))
      (List.pairwise_cons.mp hpw).2
      (fun m hm =>
        (List.pairwise_cons.mp hpw).1 m (List.mem_of_mem_head? hm)) ha2
    rw [List.append_eq, hih]
    simp [List.append_assoc]

theorem splitLines_ne_nil (t : List Char) : ¬ splitLines t = [] := by
  cases t with
  | nil => simp [splitLines]
  | cons c cs =>
    simp only [splitLines]
    by_cases h : c = '\n'
    · simp [h]
    · rw [if_neg h]
      cases hsp : splitLines cs
      · simp
      · simp

theorem joinLines_cons (a : List Char) (L : List (List Char))
    (h : ¬ L = []) : joinLines (a :: L) = a ++ '\n' :: joinLines L := by
  cases L with
  | nil => exact absurd rfl h
  | cons b Ls => rfl

theorem joinLines_splitLines (t : List Char) :
    joinLines (splitLines t) = t := by
  induction t with
  | nil => rfl
  | cons c cs ih =>
    simp only [splitLines]
    by_cases h : c = '\n'
    · rw [if_pos h]
      rw [joinLines_cons _ _ (splitLines_ne_nil cs), ih, h]
      rfl
    · rw [if_neg h]
      cases hsp : splitLines cs with
      | nil => exact absurd hsp (splitLines_ne_nil cs)
      | cons L Ls =>
        rw [hsp] at ih
        cases Ls with
        | nil =>
          simp only [joinLines] at ih ⊢
          rw [ih]
        | cons L2 Ls2 =>
          simp only [joinLines] at ih ⊢
          rw [List.cons_append, ih]

theorem splitLines_first (l rest : List Char) (hl : ¬ '\n' ∈ l) :
    splitLines (l ++ '\n' :: rest) = l :: splitLines rest := by
  induction l with
  | nil => simp [splitLines]
  | cons c cs ih =>
    have hc : ¬ c = '\n' := by
      intro h
      exact hl (by rw [h]; exact List.mem_cons_self _ _)
    rw [List.cons_append]
    simp only [splitLines]
    rw [if_neg hc, ih (fun hm => hl (List.mem_cons_of_mem _ hm))]

theorem splitLines_single (t : List Char) (h : ¬ '\n' ∈ t) :
    splitLines t = [t] := by
  induction t with
  | nil => rfl
  | cons c cs ih =>
    have hc : ¬ c = '\n' := by
      intro hcc
      exact h (by rw [hcc]; exact List.mem_cons_self _ _)
    simp only [splitLines]
    rw [if_neg hc, ih (fun hm => h (List.mem_cons_of_mem _ hm))]

theorem exists_newline_split (t : List Char) (h : '\n' ∈ t) :
    ∃ l rest, t = l ++ '\n' :: rest ∧ ¬ '\n' ∈ l := by
  induction t with
  | nil => simp at h
  | cons c cs ih =>
    by_cases hc : c = '\n'
    · exact ⟨[], cs, by rw [hc]; rfl, by simp⟩
    · have h' : '\n' ∈ cs := by
        rcases List.mem_cons.mp h with hh | hh
        · exact absurd hh.symm hc
        · exact hh
      obtain ⟨l, rest, heq, hnll⟩ := ih h'
      refine ⟨c :: l, rest, by rw [List.cons_append, heq], ?_⟩
      intro hm
      rcases List.mem_cons.mp hm with hh | hh
      · exact hc hh.symm
      · exact hnll hh

/-- For newline-free patterns with unique keys, `replace_all` distributes
over a newline: substitute each side separately and re-join. -/
theorem replaceAll_split (terms : List (List Char × List Char))
    (hnd : (terms.map Prod.fst).Nodup)
    (hnl : ∀ p ∈ terms, ¬ '\n' ∈ p.1) (l rest : List Char) :
    replaceAll (matcherInit terms) (l ++ '\n' :: rest) =
      replaceAll (matcherInit terms) l ++
        '\n' :: replaceAll (matcherInit terms) rest := by
  rw [replaceAll_eq_spec, replaceAll_eq_spec, replaceAll_eq_spec]
  rw [findMatches_split terms hnd hnl l rest]
  refine specSubstitute_split l rest _ _ 0 ?_ ?_ ?_ (Nat.zero_le _)
  · intro m hm
    obtain ⟨-, -, hstop, -, hle, -⟩ := findMatches_mem_facts hm
    exact ⟨by omega, hle⟩
  · exact (findMatches_pairwise terms l).imp (fun h => h.2)
  · intro m _
    exact Nat.zero_le _

/-- For newline-free patterns with unique keys, whole-text `replace_all` is
exactly `replace_all` applied to each line separately, re-joined — each line
of the substituted text is the whole-text algorithm's output on that line. -/
theorem replaceAll_lines (terms : List (List Char × List Char))
    (hnd : (terms.map Prod.fst).Nodup)
    (hnl : ∀ p ∈ terms, ¬ '\n' ∈ p.1) (t : List Char) :
    replaceAll (matcherInit terms) t =
      joinLines ((splitLines t).map (replaceAll (matcherInit terms))) := by
  suffices H : ∀ n (t : List Char), t.length ≤ n →
      replaceAll (matcherInit terms) t =
        joinLines ((splitLines t).map (replaceAll (matcherInit terms))) from
    H t.length t (Nat.le_refl _)
  intro n
  induction n with
  | zero =>
    intro t hlen
    have ht : t = [] := List.eq_nil_of_length_eq_zero (by omega)
    subst ht
    rfl
  | succ n ihn =>
    intro t hlen
    by_cases h : '\n' ∈ t
    · obtain ⟨l, rest, rfl, hnll⟩ := exists_newline_split t h
      rw [replaceAll_split terms hnd hnl l rest]
      rw [splitLines_first l rest hnll, List.map_cons]
      rw [joinLines_cons _ _ (by
        intro hmap
        exact splitLines_ne_nil rest (List.map_eq_nil_iff.mp hmap))]
      have hrl : rest.length ≤ n := by
        have := congrArg List.length (rfl :
          l ++ '\n' :: rest = l ++ '\n' :: rest)
        simp only [List.length_append, List.length_cons] at hlen
        omega
      rw [ihn rest hrl]
    · rw [splitLines_single t h]
      rfl

theorem enum_map_snd_comp {α β : Type} (f : α → β) (l : List α) :
    (l.enum).map (fun p => f p.2) = l.map f := by
  conv_rhs => rw [← List.enum_map_snd l]
  rw [List.map_map]
  rfl

/-- C4 counterexample: with the mapping `{"A\nB": "X"}` (a source spanning a
newline), the text `"A\nB\nC"` and ignored line set `{3}`, `convert_text`
with `fix` reports the match `A\nB→X` on (non-ignored) line 1 yet returns
the text unchanged, while the whole-text `replace_all` produces `"X\nC"` —
so a reported match on a non-ignored line is not substituted as the
whole-text algorithm would substitute it, refuting the claim as stated. -/
theorem C4_counterexample :
    convertText (matcherInit [(['A', '\n', 'B'], ['X'])])
        ['A', '\n', 'B', '\n', 'C'] true [3] =
      (['A', '\n', 'B', '\n', 'C'],
        [(⟨0, 3, ['A', '\n', 'B'], ['X']⟩, 1, 1)]) ∧
    replaceAll (matcherInit [(['A', '\n', 'B'], ['X'])])
        ['A', '\n', 'B', '\n', 'C'] = ['X', '\n', 'C'] := by decide

/-- C4 amended: provided no source term contains a newline (and keys are
unique, as in a Python dict): matches whose computed line is in the ignored
set are dropped from the reported list; the substituted text of
`_replace_with_ignores` keeps every ignored line verbatim and replaces every
other line by `replace_all` of that line; and whole-text `replace_all`
itself equals the line-by-line substitution re-joined — so each non-ignored
line of the fixed text is exactly what whole-text substitution would produce
for that line. -/
theorem C4_line_suppression (terms : List (List Char × List Char))
    (text : List Char) (fix : Bool) (ignored : List Nat)
    (hnd : (terms.map Prod.fst).Nodup)
    (hnl : ∀ p ∈ terms, ¬ '\n' ∈ p.1) :
    (convertText (matcherInit terms) text fix ignored).2 =
      (findMatchesWithLines (matcherInit terms) text).filter
        (fun tr => ¬ tr.2.1 ∈ ignored) ∧
    replaceAll (matcherInit terms) text =
      joinLines ((splitLines text).map (replaceAll (matcherInit terms))) ∧
    replaceWithIgnores (matcherInit terms) text ignored =
      joinLines ((splitLines text).enum.map (fun p =>
        if p.1 + 1 ∈ ignored then p.2
        else replaceAll (matcherInit terms) p.2)) := by
  refine ⟨rfl, replaceAll_lines terms hnd hnl text, ?_⟩
  simp only [replaceWithIgnores]
  split
  · rename_i hig
    have hig' : ignored = [] := List.isEmpty_iff.mp hig
    subst hig'
    simp only [List.not_mem_nil, if_false]
    rw [enum_map_snd_comp]
    exact replaceAll_lines terms hnd hnl text
  · rfl

/-- Witness for C4 amended at mapping `{"AB": "X"}`, text `"AB\nAB"`,
ignored line set `{2}` with `fix`: line 1 is fixed to `"X"`, line 2 is kept
verbatim. -/
theorem C4_line_suppression_witness :
    (([(['A', 'B'], ['X'])].map Prod.fst).Nodup ∧
      ∀ p ∈ [(['A', 'B'], ['X'])], ¬ '\n' ∈ p.1) ∧
    ((convertText (matcherInit [(['A', 'B'], ['X'])])
        ['A', 'B', '\n', 'A', 'B'] true [2]).2 =
      (findMatchesWithLines (matcherInit [(['A', 'B'], ['X'])])
        ['A', 'B', '\n', 'A', 'B']).filter (fun tr => ¬ tr.2.1 ∈ [2]) ∧
    replaceAll (matcherInit [(['A', 'B'], ['X'])])
        ['A', 'B', '\n', 'A', 'B'] =
      joinLines ((splitLines ['A', 'B', '\n', 'A', 'B']).map
        (replaceAll (matcherInit [(['A', 'B'], ['X'])]))) ∧
    replaceWithIgnores (matcherInit [(['A', 'B'], ['X'])])
        ['A', 'B', '\n', 'A', 'B'] [2] =
      joinLines ((splitLines ['A', 'B', '\n', 'A', 'B']).enum.map (fun p =>
        if p.1 + 1 ∈ [2] then p.2
        else replaceAll (matcherInit [(['A', 'B'], ['X'])]) p.2))) :=
  ⟨⟨by decide, by decide⟩,
    C4_line_suppression _ _ true [2] (by decide) (by decide)⟩

/-! ### Line/column machinery -/

theorem lineStartsAux_mem {i : Nat} {cs : List Char} {x : Nat}
    (hx : x ∈ lineStartsAux i cs) : i < x ∧ x ≤ i + cs.length := by
  induction cs generalizing i with
  | nil => simp [lineStartsAux] at hx
  | cons c cs ih =>
    simp only [lineStartsAux, List.mem_append] at hx
    rcases hx with hx | hx
    · by_cases h : c = '\n'
      · rw [if_pos h] at hx
        simp only [List.mem_singleton] at hx
        subst hx
        simp only [List.length_cons]
        omega
      · rw [if_neg h] at hx
        simp at hx
    · have := ih hx
      simp only [List.length_cons]
      omega

theorem lineStartsAux_pairwise (i : Nat) (cs : List Char) :
    (lineStartsAux i cs).Pairwise (· < ·) := by
  induction cs generalizing i with
  | nil => simp [lineStartsAux]
  | cons c cs ih =>
    simp only [lineStartsAux]
    by_cases h : c = '\n'
    · rw [if_pos h]
      simp only [List.singleton_append]
      refine List.pairwise_cons.mpr ⟨?_, ih (i + 1)⟩
      intro x hx
      exact (lineStartsAux_mem hx).1
    · rw [if_neg h]
      simpa using ih (i + 1)

theorem lineStarts_pairwise (text : List Char) :
    (lineStarts text).Pairwise (· < ·) := by
  refine List.pairwise_cons.mpr ⟨?_, lineStartsAux_pairwise 0 text⟩
  intro x hx
  have := (lineStartsAux_mem hx).1
  omega

theorem pairwise_lt_getD_mono {ls : List Nat} (h : ls.Pairwise (· < ·))
    {i j : Nat} (hij : i ≤ j) (hj : j < ls.length) :
    ls.getD i 0 ≤ ls.getD j 0 := by
  rcases Nat.eq_or_lt_of_le hij with rfl | hlt
  · exact Nat.le_refl _
  · have hi : i < ls.length := Nat.lt_trans hlt hj
    have hr := (List.pairwise_iff_getElem.mp h) i j hi hj hlt
    rw [List.getD_eq_getElem ls 0 hi, List.getD_eq_getElem ls 0 hj]
    omega

/-- Invariant proof for the binary-search loop: starting from a bracket
`[lo, hi]` with `ls[lo] ≤ pos` and everything above `hi` exceeding `pos`, the
loop lands on an index `r` with `ls[r] ≤ pos` and everything above `r`
exceeding `pos` — the greatest line-start index not past `pos`. -/
theorem lineColLoop_correct (ls : List Nat) (pos : Nat) :
    ∀ (fuel lo hi : Nat), hi < ls.length → lo ≤ hi → hi - lo ≤ fuel →
      ls.getD lo 0 ≤ pos →
      (∀ j, hi < j → j < ls.length → pos < ls.getD j 0) →
      ls.Pairwise (· < ·) →
      lo ≤ lineColLoop ls pos fuel lo hi ∧
        lineColLoop ls pos fuel lo hi ≤ hi ∧
        ls.getD (lineColLoop ls pos fuel lo hi) 0 ≤ pos ∧
        (∀ j, lineColLoop ls pos fuel lo hi < j → j < ls.length →
          pos < ls.getD j 0) := by
  intro fuel
  induction fuel with
  | zero =>
    intro lo hi h1 h2 h3 h4 h5 _h6
    have hlh : lo = hi := by omega
    subst hlh
    simp only [lineColLoop]
    exact ⟨Nat.le_refl _, Nat.le_refl _, h4, h5⟩
  | succ fuel ih =>
    intro lo hi h1 h2 h3 h4 h5 h6
    simp only [lineColLoop]
    by_cases hlh : lo < hi
    · rw [if_pos hlh]
      by_cases hle : ls.getD ((lo + hi + 1) / 2) 0 ≤ pos
      · rw [if_pos hle]
        have hmid1 : lo < (lo + hi + 1) / 2 := by omega
        have hmid2 : (lo + hi + 1) / 2 ≤ hi := by omega
        obtain ⟨r1, r2, r3, r4⟩ :=
          ih ((lo + hi + 1) / 2) hi h1 hmid2 (by omega) hle h5 h6
        exact ⟨by omega, r2, r3, r4⟩
      · rw [if_neg hle]
        have hmid1 : lo < (lo + hi + 1) / 2 := by omega
        have hmid2 : (lo + hi + 1) / 2 ≤ hi := by omega
        have hnew : ∀ j, (lo + hi + 1) / 2 - 1 < j → j < ls.length →
            pos < ls.getD j 0 := by
          intro j hj hjl
          by_cases hjhi : hi < j
          · exact h5 j hjhi hjl
          · have hmj : (lo + hi + 1) / 2 ≤ j := by omega
            have := pairwise_lt_getD_mono h6 hmj hjl
            omega
        obtain ⟨r1, r2, r3, r4⟩ :=
          ih lo ((lo + hi + 1) / 2 - 1) (by omega) (by omega) (by omega)
            h4 hnew h6
        exact ⟨r1, by omega, r3, r4⟩
    · rw [if_neg hlh]
      have : lo = hi := by omega
      subst this
      exact ⟨Nat.le_refl _, Nat.le_refl _, h4, h5⟩

/-- The binary search of `get_line_col` returns the greatest index of a line
start that is `≤ pos`. -/
theorem getLineCol_greatest (text : List Char) (pos : Nat) :
    (lineStarts text).getD ((getLineCol text pos).1 - 1) 0 ≤ pos ∧
      (∀ j, j < (lineStarts text).length →
        (lineStarts text).getD j 0 ≤ pos → j ≤ (getLineCol text pos).1 - 1) ∧
      (getLineCol text pos).2 =
        pos - (lineStarts text).getD ((getLineCol text pos).1 - 1) 0 + 1 := by
  have hlen : 0 < (lineStarts text).length := by simp [lineStarts]
  have h0 : (lineStarts text).getD 0 0 = 0 := by simp [lineStarts]
  obtain ⟨r1, r2, r3, r4⟩ :=
    lineColLoop_correct (lineStarts text) pos ((lineStarts text).length - 1)
      0 ((lineStarts text).length - 1) (by omega) (by omega) (by omega)
      (by omega) (by intro j hj hjl; omega) (lineStarts_pairwise text)
  simp only [getLineCol, Nat.add_sub_cancel]
  refine ⟨r3, ?_, by trivial⟩
  intro j hjl hjle
  by_contra hgt
  have := r4 j (by omega) hjl
  omega

/-- C9: every reported match carries exactly `get_line_col` of its start
offset; `get_line_col` reports `(r + 1, pos - line_starts[r] + 1)` — both
1-based — where `r` is the greatest index of the line-start table (offset
`0` plus one past every `'\n'`) not exceeding `pos`, which is what the
binary search computes; and in the concrete run on `"第一行\nAB在這裡"` with
mapping `{"AB": "XY"}` the single match reports line 2, column 1. -/
theorem C9_line_col (terms : List (List Char × List Char))
    (text : List Char) :
    (findMatchesWithLines (matcherInit terms) text =
      (findMatches (matcherInit terms) text).map
        (fun m => (m, getLineCol text m.start))) ∧
    (∀ pos : Nat,
      (lineStarts text).getD ((getLineCol text pos).1 - 1) 0 ≤ pos ∧
      (∀ j, j < (lineStarts text).length →
        (lineStarts text).getD j 0 ≤ pos →
          j ≤ (getLineCol text pos).1 - 1) ∧
      (getLineCol text pos).2 =
        pos - (lineStarts text).getD ((getLineCol text pos).1 - 1) 0 + 1) ∧
    findMatchesWithLines (matcherInit [(['A', 'B'], ['X', 'Y'])])
        "第一行\nAB在這裡".data =
      [(⟨4, 6, ['A', 'B'], ['X', 'Y']⟩, 2, 1)] := by
  refine ⟨rfl, fun pos => getLineCol_greatest text pos, by decide⟩

/-- Witness for C6 at mapping `{"AB": "X"}` and text `"zABw"`: the
substituted text is `"zXw"`, in which `"AB"` no longer occurs, and a second
scan finds nothing. -/
theorem C6_idempotence_witness :
    (∀ p ∈ [(['A', 'B'], ['X'])],
      ∀ s < (replaceAll (matcherInit [(['A', 'B'], ['X'])])
          ['z', 'A', 'B', 'w']).length,
        ¬ textSeg (replaceAll (matcherInit [(['A', 'B'], ['X'])])
            ['z', 'A', 'B', 'w']) s (s + p.1.length) = p.1) ∧
    findMatches (matcherInit [(['A', 'B'], ['X'])])
      (replaceAll (matcherInit [(['A', 'B'], ['X'])])
        ['z', 'A', 'B', 'w']) = [] :=
  ⟨by decide, C6_idempotence _ _ (by decide)⟩

end Zhtw
